import Mathlib

/-!
Verification of the URL shortener in `src/shortener.js`.

The JavaScript closure `shortener(alphabet, protocol, ids)` is embedded as a
state structure `ShortenerState` together with state-passing functions.
JavaScript's `%` on integers is sign-of-dividend remainder (`Int.tmod`),
and `Math.floor(a / b)` on integers is floor division (`Int.fdiv`).
The JavaScript object `urlmap` is keyed by `urlmap[id]` where `id` is an
array of numbers: JavaScript stringifies the array (comma-separated decimal
integers), and that stringification is injective on lists of integers, so
the map is modelled as an association list keyed by the digit list itself,
with assignment as prepending and lookup as first match (same observable
lookup behaviour as the JavaScript object).
-/

namespace Shortener

/-- JavaScript `url.split(sep)` for a one-character separator, over the
character list of the string: the (possibly empty) segments between
occurrences of `sep`. -/
def splitChar (sep : Char) : List Char → List (List Char)
  | [] => [[]]
  | c :: rest =>
    match splitChar sep rest with
    | [] => [[]]
    | cur :: parts => if c = sep then [] :: cur :: parts else (c :: cur) :: parts

/-- getPath (src/shortener.js lines 49-52): `url.split('/')[3]`.
Index 3 of the split; `none` models the JavaScript `undefined` obtained
when the split has fewer than four fields. -/
def getPath (url : String) : Option String :=
  ((splitChar '/' url.toList)[3]?).map List.asString

/-- JavaScript `s.charAt(i)` at an integer index: the one-character string
at position `i`, or the empty string when `i` is out of range. -/
def charAt (s : String) (i : Int) : String :=
  if 0 ≤ i then ((s.toList.drop i.toNat).take 1).asString else ""

/-- First index of the character `c` in a character list, `-1` when absent:
the JavaScript `String.prototype.indexOf` convention for a one-character
search string. -/
def indexOfFrom (c : Char) : List Char → Int
  | [] => -1
  | x :: rest =>
    if x = c then 0
    else if indexOfFrom c rest = -1 then -1 else indexOfFrom c rest + 1

/-- JavaScript `s.indexOf(c)` for a one-character search string. -/
def indexOf (s : String) (c : Char) : Int :=
  indexOfFrom c s.toList

/-- Body of the do-while loop of toDigits (src/shortener.js lines 76-80),
with an explicit fuel bound so the recursion is structural.  Lemmas
`toDigits_stop` and `toDigits_step` show that with fuel `id.toNat` this is
exactly the source's do-while whenever the alphabet invariant `2 ≤ length`
of the specification holds (with fewer than two characters the JavaScript
loop itself fails to terminate on ids above one). -/
def digitsLoopAux (len : Int) : Nat → Int → List Int → List Int
  | 0, id, idArray => idArray ++ [Int.tmod id len]
  | fuel + 1, id, idArray =>
    let idArray2 := idArray ++ [Int.tmod id len]
    let id2 := Int.fdiv id len
    if 0 < id2 then digitsLoopAux len fuel id2 idArray2 else idArray2

/-- toDigits (src/shortener.js lines 73-83): repeatedly push
`id % alphabet.length`, replace `id` by `Math.floor(id / alphabet.length)`,
while the new `id` is positive (do-while), then reverse the accumulator. -/
def toDigits (alphabet : String) (id : Int) : List Int :=
  (digitsLoopAux (alphabet.length : Int) id.toNat id []).reverse

/-- Encoding loop of shorten (src/shortener.js lines 104-109):
`code += alphabet.charAt(id[index])` over the digit array, starting from
the empty string. -/
def encodeDigits (alphabet : String) (digits : List Int) : String :=
  digits.foldl (fun code d => code ++ charAt alphabet d) ""

/-- Decoding loop of expand (src/shortener.js lines 128-133):
`id.push(alphabet.indexOf(path[index]))` over the characters of the path. -/
def decodeCode (alphabet : String) (path : String) : List Int :=
  path.toList.map (fun c => indexOf alphabet c)

/-- The mutable state captured by the `shortener` closure
(src/shortener.js lines 25-38): the configuration, the `ids` counter and
the `urlmap` object (keyed by digit lists, see the file comment). -/
structure ShortenerState where
  alphabet : String
  protocol : String
  ids : Int
  urlmap : List (List Int × String)

/-- shortener (src/shortener.js line 25): a fresh session; `urlmap = {}`. -/
def shortener (alphabet protocol : String) (ids : Int) : ShortenerState :=
  { alphabet := alphabet, protocol := protocol, ids := ids, urlmap := [] }

/-- nextid (src/shortener.js lines 36-38): `return ids++` — yields the
current counter and advances it. -/
def nextid (st : ShortenerState) : ShortenerState × Int :=
  ({ st with ids := st.ids + 1 }, st.ids)

/-- shorten (src/shortener.js lines 101-112): draw the next id, convert it
to digits, encode the digits through the alphabet, store
`urlmap[digits] = urll`, and return `protocol + code`. -/
def shorten (st : ShortenerState) (urll : String) : ShortenerState × String :=
  let st1 := (nextid st).1
  let id := (nextid st).2
  let digits := toDigits st1.alphabet id
  let code := encodeDigits st1.alphabet digits
  ({ st1 with urlmap := (digits, urll) :: st1.urlmap }, st1.protocol ++ code)

/-- expand (src/shortener.js lines 126-135): extract the path, decode it to
digit values, and look the digit list up in `urlmap`.  The result
`none` models the JavaScript `TypeError` thrown on a URL with fewer than
four slash-separated fields (reading `.length` of `undefined`);
`some none` models the `undefined` returned for an absent key ("not
found"); `some (some u)` is a successful lookup.  The body never writes
the state, so the returned state is the input state. -/
def expand (st : ShortenerState) (urls : String) : ShortenerState × Option (Option String) :=
  match getPath urls with
  | none => (st, none)
  | some path => (st, some (st.urlmap.lookup (decodeCode st.alphabet path)))

/-- The alphabet configured in src/shortener.js lines 154-157. -/
def alphabet : String :=
  "abcdefghijklmnopqrstuvwxyzABCDEFGHIJKLMNOPQRSTUVWXYZ0123456789"

/-- The protocol/domain prefix configured in src/shortener.js line 160. -/
def protocol : String := "http://short.ly/"

/-- The starting id configured in src/shortener.js line 163. -/
def startID : Int := 4097

/-- Modelled from the spec: section 8 postulates a function `toDigitsToId`
that "reverses the positional-notation construction"; the repository has no
such function.  It folds most-significant-first digits in base `radix`. -/
def toDigitsToId (radix : Int) (digits : List Int) : Int :=
  digits.foldl (fun acc d => acc * radix + d) 0

/-- States reachable from a fresh session by any sequence of `shorten` and
`expand` calls. -/
inductive Reachable (alpha proto : String) (seed : Int) : ShortenerState → Prop
  | init : Reachable alpha proto seed (shortener alpha proto seed)
  | step_shorten {st : ShortenerState} (u : String) :
      Reachable alpha proto seed st → Reachable alpha proto seed (shorten st u).1
  | step_expand {st : ShortenerState} (u : String) :
      Reachable alpha proto seed st → Reachable alpha proto seed (expand st u).1

/-- A nonpositive dividend has a nonpositive floor quotient by a positive
divisor; this is why the JavaScript do-while exits after one iteration on
nonpositive ids. -/
lemma fdiv_nonpos_of_nonpos {id len : Int} (hid : id ≤ 0) (hlen : 0 < len) :
    Int.fdiv id len ≤ 0 := by
  rw [Int.fdiv_eq_ediv _ (le_of_lt hlen)]
  calc id / len ≤ 0 / len := Int.ediv_le_ediv hlen hid
  _ = 0 := Int.zero_ediv len

/-- When the floor quotient is positive and the radix is at least two, the
dividend is positive and the quotient is strictly smaller: the loop
measure. -/
lemma pos_and_lt_of_fdiv_pos {id len : Int} (hlen : 2 ≤ len)
    (h : 0 < Int.fdiv id len) :
    0 < id ∧ (Int.fdiv id len).toNat < id.toNat := by
  have hlen0 : (0 : Int) < len := by omega
  rw [Int.fdiv_eq_ediv _ (by omega)] at h ⊢
  have h1 : (1 : Int) ≤ id / len := h
  have hle : 1 * len ≤ id := (Int.le_ediv_iff_mul_le hlen0).mp h1
  have hmod := Int.ediv_add_emod id len
  have hmn : 0 ≤ id % len := Int.emod_nonneg id (by omega)
  have h2q : 2 * (id / len) ≤ len * (id / len) :=
    mul_le_mul_of_nonneg_right hlen (by omega)
  have hqlt : id / len < id := by linarith
  refine ⟨by omega, by omega⟩

/-- The accumulator only ever receives appended digits, so it factors out
of the loop. -/
lemma digitsLoopAux_acc (len : Int) :
    ∀ (fuel : Nat) (id : Int) (acc : List Int),
      digitsLoopAux len fuel id acc = acc ++ digitsLoopAux len fuel id [] := by
  intro fuel
  induction fuel with
  | zero => intro id acc; simp [digitsLoopAux]
  | succ n ih =>
      intro id acc
      simp only [digitsLoopAux]
      by_cases h : 0 < Int.fdiv id len
      · rw [if_pos h, if_pos h, ih (Int.fdiv id len) (acc ++ [Int.tmod id len]),
          ih (Int.fdiv id len) ([] ++ [Int.tmod id len])]
        simp
      · rw [if_neg h, if_neg h]
        simp

/-- Any fuel at least `id.toNat` computes the same result (radix at least
two): the fuel bound is never what stops the loop. -/
lemma digitsLoopAux_fuel {len : Int} (hlen : 2 ≤ len) :
    ∀ (fuel fuel2 : Nat) (id : Int) (acc : List Int),
      id.toNat ≤ fuel → id.toNat ≤ fuel2 →
      digitsLoopAux len fuel id acc = digitsLoopAux len fuel2 id acc := by
  intro fuel
  induction fuel with
  | zero =>
      intro fuel2 id acc h1 _
      have hid : id ≤ 0 := by omega
      have hdiv : Int.fdiv id len ≤ 0 := fdiv_nonpos_of_nonpos hid (by omega)
      cases fuel2 with
      | zero => rfl
      | succ m =>
          simp only [digitsLoopAux]
          rw [if_neg (not_lt.mpr hdiv)]
  | succ n ih =>
      intro fuel2 id acc h1 h2
      by_cases hq : 0 < Int.fdiv id len
      · obtain ⟨hidpos, hlt⟩ := pos_and_lt_of_fdiv_pos hlen hq
        cases fuel2 with
        | zero => omega
        | succ m =>
            simp only [digitsLoopAux]
            rw [if_pos hq, if_pos hq]
            exact ih m (Int.fdiv id len) (acc ++ [Int.tmod id len]) (by omega) (by omega)
      · cases fuel2 with
        | zero =>
            simp only [digitsLoopAux]
            rw [if_neg hq]
        | succ m =>
            simp only [digitsLoopAux]
            rw [if_neg hq, if_neg hq]

/-- One-shot exit of the loop: when the new quotient is not positive the
do-while stops after the single pushed remainder, whatever the fuel. -/
lemma digitsLoopAux_stop {len id : Int} (fuel : Nat) (acc : List Int)
    (h : Int.fdiv id len ≤ 0) :
    digitsLoopAux len fuel id acc = acc ++ [Int.tmod id len] := by
  cases fuel with
  | zero => rfl
  | succ n =>
      simp only [digitsLoopAux]
      rw [if_neg (not_lt.mpr h)]

/-- Exit characterization of toDigits: a single digit when the quotient is
not positive. -/
lemma toDigits_stop {alphabet : String} {id : Int}
    (h : Int.fdiv id (alphabet.length : Int) ≤ 0) :
    toDigits alphabet id = [Int.tmod id (alphabet.length : Int)] := by
  unfold toDigits
  rw [digitsLoopAux_stop _ _ h]
  simp

/-- Step characterization of toDigits: exactly the source's do-while
recursion (most-significant digits of the quotient, then the remainder),
valid under the specification's alphabet invariant. -/
lemma toDigits_step {alphabet : String} {id : Int} (hlen : 2 ≤ alphabet.length)
    (h : 0 < Int.fdiv id (alphabet.length : Int)) :
    toDigits alphabet id
      = toDigits alphabet (Int.fdiv id (alphabet.length : Int))
          ++ [Int.tmod id (alphabet.length : Int)] := by
  have hlen2 : (2 : Int) ≤ (alphabet.length : Int) := by exact_mod_cast hlen
  obtain ⟨hidpos, hlt⟩ := pos_and_lt_of_fdiv_pos hlen2 h
  unfold toDigits
  obtain ⟨k, hk⟩ : ∃ k, id.toNat = k + 1 := ⟨id.toNat - 1, by omega⟩
  rw [hk]
  simp only [digitsLoopAux]
  rw [if_pos h]
  rw [digitsLoopAux_acc]
  rw [digitsLoopAux_fuel hlen2 k (Int.fdiv id (alphabet.length : Int)).toNat
    (Int.fdiv id (alphabet.length : Int)) [] (by omega) (by omega)]
  simp

/-- Peeling the least-significant digit off the positional fold. -/
lemma toDigitsToId_append (radix : Int) (xs : List Int) (d : Int) :
    toDigitsToId radix (xs ++ [d]) = toDigitsToId radix xs * radix + d := by
  simp [toDigitsToId, List.foldl_append]

/-- Round trip: folding the digits of a non-negative id back in base
`alphabet.length` recovers the id. -/
lemma toDigitsToId_toDigits {alphabet : String} (hlen : 2 ≤ alphabet.length) :
    ∀ (id : Int), 0 ≤ id →
      toDigitsToId (alphabet.length : Int) (toDigits alphabet id) = id := by
  have hlen2 : (2 : Int) ≤ (alphabet.length : Int) := by exact_mod_cast hlen
  have main : ∀ (n : Nat) (id : Int), 0 ≤ id → id.toNat = n →
      toDigitsToId (alphabet.length : Int) (toDigits alphabet id) = id := by
    intro n
    induction n using Nat.strong_induction_on with
    | _ n ih =>
      intro id hid hn
      by_cases hq : 0 < Int.fdiv id (alphabet.length : Int)
      · obtain ⟨hidpos, hlt⟩ := pos_and_lt_of_fdiv_pos hlen2 hq
        rw [toDigits_step hlen hq, toDigitsToId_append]
        rw [ih (Int.fdiv id (alphabet.length : Int)).toNat (by omega)
              (Int.fdiv id (alphabet.length : Int))
              (Int.fdiv_nonneg hid (by omega)) rfl]
        rw [Int.fdiv_eq_ediv _ (by omega), Int.tmod_eq_emod hid (by omega)]
        have hde := Int.ediv_add_emod id (alphabet.length : Int)
        linarith [mul_comm (id / (alphabet.length : Int)) ((alphabet.length : Int))]
      · rw [toDigits_stop (not_lt.mp hq)]
        have h0 : Int.fdiv id (alphabet.length : Int) = 0 :=
          le_antisymm (not_lt.mp hq) (Int.fdiv_nonneg hid (by omega))
        rw [Int.fdiv_eq_ediv _ (by omega)] at h0
        rw [Int.tmod_eq_emod hid (by omega)]
        have hm := Int.emod_def id (alphabet.length : Int)
        simp only [toDigitsToId, List.foldl_cons, List.foldl_nil]
        rw [hm, h0]
        ring
  intro id hid
  exact main id.toNat id hid rfl

/-- Every digit produced from a non-negative id lies in `[0, radix)`. -/
lemma toDigits_mem_range {alphabet : String} (hlen : 2 ≤ alphabet.length) :
    ∀ (id : Int), 0 ≤ id →
      ∀ d ∈ toDigits alphabet id, 0 ≤ d ∧ d < (alphabet.length : Int) := by
  have hlen2 : (2 : Int) ≤ (alphabet.length : Int) := by exact_mod_cast hlen
  have main : ∀ (n : Nat) (id : Int), 0 ≤ id → id.toNat = n →
      ∀ d ∈ toDigits alphabet id, 0 ≤ d ∧ d < (alphabet.length : Int) := by
    intro n
    induction n using Nat.strong_induction_on with
    | _ n ih =>
      intro id hid hn d hd
      by_cases hq : 0 < Int.fdiv id (alphabet.length : Int)
      · obtain ⟨hidpos, hlt⟩ := pos_and_lt_of_fdiv_pos hlen2 hq
        rw [toDigits_step hlen hq] at hd
        rcases List.mem_append.mp hd with h | h
        · exact ih (Int.fdiv id (alphabet.length : Int)).toNat (by omega)
            (Int.fdiv id (alphabet.length : Int))
            (Int.fdiv_nonneg hid (by omega)) rfl d h
        · obtain rfl := List.mem_singleton.mp h
          exact ⟨Int.tmod_nonneg _ hid, Int.tmod_lt_of_pos id (by omega)⟩
      · rw [toDigits_stop (not_lt.mp hq)] at hd
        obtain rfl := List.mem_singleton.mp hd
        exact ⟨Int.tmod_nonneg _ hid, Int.tmod_lt_of_pos id (by omega)⟩
  intro id hid
  exact main id.toNat id hid rfl

/-- Distinct non-negative ids get distinct digit sequences. -/
lemma toDigits_inj {alphabet : String} (hlen : 2 ≤ alphabet.length)
    {i j : Int} (hi : 0 ≤ i) (hj : 0 ≤ j)
    (h : toDigits alphabet i = toDigits alphabet j) : i = j := by
  have hrt := toDigitsToId_toDigits hlen i hi
  rw [h, toDigitsToId_toDigits hlen j hj] at hrt
  omega

/-- charAt at an in-range index is the one-character string at that
index. -/
lemma charAt_of_lt {s : String} {d : Int} (h0 : 0 ≤ d)
    (hd : d.toNat < s.toList.length) :
    charAt s d = [s.toList.get ⟨d.toNat, hd⟩].asString := by
  unfold charAt
  rw [if_pos h0]
  have htake : (s.toList.drop d.toNat).take 1 = [s.toList.get ⟨d.toNat, hd⟩] := by
    rw [List.drop_eq_getElem_cons hd]
    rfl
  rw [htake]

/-- indexOfFrom never returns anything below the JavaScript sentinel. -/
lemma neg_one_le_indexOfFrom (c : Char) (l : List Char) :
    -1 ≤ indexOfFrom c l := by
  induction l with
  | nil => simp only [indexOfFrom]; omega
  | cons x rest ih =>
      simp only [indexOfFrom]
      by_cases h : x = c
      · rw [if_pos h]; omega
      · rw [if_neg h]
        by_cases h2 : indexOfFrom c rest = -1
        · rw [if_pos h2]
        · rw [if_neg h2]; omega

/-- indexOfFrom stays below the length of the list. -/
lemma indexOfFrom_lt_length (c : Char) (l : List Char) :
    indexOfFrom c l < (l.length : Int) := by
  induction l with
  | nil => simp only [indexOfFrom, List.length_nil]; omega
  | cons x rest ih =>
      simp only [indexOfFrom, List.length_cons]
      by_cases h : x = c
      · rw [if_pos h]; push_cast; omega
      · rw [if_neg h]
        by_cases h2 : indexOfFrom c rest = -1
        · rw [if_pos h2]; push_cast; omega
        · rw [if_neg h2]; push_cast at ih ⊢; omega

/-- A character absent from the list yields the sentinel `-1`. -/
lemma indexOfFrom_of_not_mem {c : Char} {l : List Char} (h : c ∉ l) :
    indexOfFrom c l = -1 := by
  induction l with
  | nil => rfl
  | cons x rest ih =>
      simp only [List.mem_cons, not_or] at h
      simp only [indexOfFrom]
      rw [if_neg (fun hx => h.1 hx.symm), if_pos (ih h.2)]

/-- On a duplicate-free list, looking up the character stored at index `n`
returns `n`: the inverse lookup of the alphabet is well defined. -/
lemma indexOfFrom_get {l : List Char} (hnd : l.Nodup) :
    ∀ (n : Nat) (h : n < l.length), indexOfFrom (l.get ⟨n, h⟩) l = (n : Int) := by
  induction l with
  | nil => intro n h; simp at h
  | cons x rest ih =>
      intro n h
      cases n with
      | zero => simp [indexOfFrom]
      | succ m =>
          obtain ⟨hx, hnd2⟩ := List.nodup_cons.mp hnd
          have hm : m < rest.length := by simpa using h
          have hget : (x :: rest).get ⟨m + 1, h⟩ = rest.get ⟨m, hm⟩ := rfl
          rw [hget]
          simp only [indexOfFrom]
          have hne : x ≠ rest.get ⟨m, hm⟩ :=
            fun he => hx (he ▸ List.get_mem rest m hm)
          rw [if_neg hne, ih hnd2 m hm]
          have hne2 : (m : Int) ≠ -1 := by omega
          rw [if_neg hne2]
          push_cast
          ring

/-- A non-sentinel result of indexOfFrom points at the searched
character. -/
lemma indexOfFrom_nonneg_spec {c : Char} {l : List Char}
    (h : 0 ≤ indexOfFrom c l) :
    ∃ hlt : (indexOfFrom c l).toNat < l.length,
      l.get ⟨(indexOfFrom c l).toNat, hlt⟩ = c := by
  induction l with
  | nil => simp only [indexOfFrom] at h; omega
  | cons x rest ih =>
      by_cases hx : x = c
      · have h0 : indexOfFrom c (x :: rest) = 0 := by
          simp only [indexOfFrom]
          rw [if_pos hx]
        rw [h0]
        exact ⟨by simp, by simpa using hx⟩
      · have hcond : indexOfFrom c (x :: rest)
            = if indexOfFrom c rest = -1 then -1 else indexOfFrom c rest + 1 := by
          simp only [indexOfFrom]
          rw [if_neg hx]
        by_cases h2 : indexOfFrom c rest = -1
        · rw [hcond, if_pos h2] at h; omega
        · have hpos : 0 ≤ indexOfFrom c rest := by
            have := neg_one_le_indexOfFrom c rest
            omega
          obtain ⟨hlt, hget⟩ := ih hpos
          have heq : indexOfFrom c (x :: rest) = indexOfFrom c rest + 1 := by
            rw [hcond, if_neg h2]
          rw [heq]
          have ht : (indexOfFrom c rest + 1).toNat = (indexOfFrom c rest).toNat + 1 := by
            omega
          rw [ht]
          exact ⟨by simpa using hlt, by simpa using hget⟩

/-- Strings append through their character lists. -/
lemma toList_append_str (a b : String) : (a ++ b).toList = a.toList ++ b.toList :=
  String.data_append a b

/-- Character lists append through asString. -/
lemma asString_append (a b : List Char) :
    (a ++ b).asString = a.asString ++ b.asString :=
  String.ext rfl

/-- The string accumulator of the encoding loop factors out. -/
lemma encodeDigits_foldl_init (alphabet : String) (l : List Int) (s : String) :
    List.foldl (fun code d => code ++ charAt alphabet d) s l
      = s ++ List.foldl (fun code d => code ++ charAt alphabet d) "" l := by
  induction l generalizing s with
  | nil => simp
  | cons d l ih =>
      simp only [List.foldl_cons]
      rw [ih (s ++ charAt alphabet d), ih ("" ++ charAt alphabet d)]
      rw [String.empty_append, String.append_assoc]

/-- Unfolding the encoding loop one digit at a time. -/
lemma encodeDigits_cons (alphabet : String) (d : Int) (l : List Int) :
    encodeDigits alphabet (d :: l) = charAt alphabet d ++ encodeDigits alphabet l := by
  simp only [encodeDigits, List.foldl_cons]
  rw [encodeDigits_foldl_init alphabet l ("" ++ charAt alphabet d), String.empty_append]

/-- Decoding an encoded in-range digit list over a duplicate-free alphabet
recovers the digit list: the character-level inverse property. -/
lemma decodeCode_encodeDigits {alphabet : String} (hnd : alphabet.toList.Nodup)
    (l : List Int) (hl : ∀ d ∈ l, 0 ≤ d ∧ d < (alphabet.length : Int)) :
    decodeCode alphabet (encodeDigits alphabet l) = l := by
  induction l with
  | nil => rfl
  | cons d l ih =>
      obtain ⟨hd0, hdlt⟩ := hl d (List.mem_cons_self d l)
      have hlen : alphabet.length = alphabet.toList.length := rfl
      have hdn : d.toNat < alphabet.toList.length := by
        rw [← hlen]; omega
      rw [encodeDigits_cons]
      simp only [decodeCode]
      rw [toList_append_str, charAt_of_lt hd0 hdn]
      rw [List.toList_asString]
      simp only [List.map_append, List.map_cons, List.map_nil]
      have hix : indexOf alphabet (alphabet.toList.get ⟨d.toNat, hdn⟩) = d := by
        unfold indexOf
        rw [indexOfFrom_get hnd d.toNat hdn]
        omega
      rw [hix]
      have ihh := ih (fun e he => hl e (List.mem_cons_of_mem d he))
      simp only [decodeCode] at ihh
      rw [ihh]
      simp

/-- Every character of an encoded in-range digit list comes from the
alphabet. -/
lemma encodeDigits_chars_mem {alphabet : String} (l : List Int)
    (hl : ∀ d ∈ l, 0 ≤ d ∧ d < (alphabet.length : Int)) :
    ∀ ch ∈ (encodeDigits alphabet l).toList, ch ∈ alphabet.toList := by
  induction l with
  | nil => intro ch hch; simp [encodeDigits] at hch
  | cons d l ih =>
      intro ch hch
      obtain ⟨hd0, hdlt⟩ := hl d (List.mem_cons_self d l)
      have hdn : d.toNat < alphabet.toList.length := by
        have hlen : alphabet.length = alphabet.toList.length := rfl
        rw [← hlen]; omega
      rw [encodeDigits_cons, toList_append_str, charAt_of_lt hd0 hdn,
        List.toList_asString] at hch
      rcases List.mem_append.mp hch with h | h
      · obtain rfl := List.mem_singleton.mp h
        exact List.get_mem alphabet.toList d.toNat hdn
      · exact ih (fun e he => hl e (List.mem_cons_of_mem d he)) ch h

/-- Re-encoding a successful decode reproduces the path: each character of
the path is the alphabet character at its decoded index. -/
lemma encodeDigits_decode_chars {alphabet : String} (code : List Char)
    (hpos : ∀ c ∈ code, 0 ≤ indexOf alphabet c) :
    encodeDigits alphabet (code.map (fun c => indexOf alphabet c))
      = code.asString := by
  induction code with
  | nil => rfl
  | cons c rest ih =>
      simp only [List.map_cons]
      rw [encodeDigits_cons]
      have hc : 0 ≤ indexOf alphabet c := hpos c (List.mem_cons_self c rest)
      have hc2 : 0 ≤ indexOfFrom c alphabet.toList := hc
      obtain ⟨hlt, hget⟩ := indexOfFrom_nonneg_spec hc2
      have hlt2 : (indexOf alphabet c).toNat < alphabet.toList.length := hlt
      have hget2 : alphabet.toList.get ⟨(indexOf alphabet c).toNat, hlt2⟩ = c := hget
      have hch : charAt alphabet (indexOf alphabet c) = [c].asString := by
        rw [charAt_of_lt hc hlt2]
        rw [hget2]
      rw [hch, ih (fun e he => hpos e (List.mem_cons_of_mem c he))]
      rw [← asString_append]
      rfl

/-- splitChar always produces at least one segment. -/
lemma splitChar_ne_nil (sep : Char) (l : List Char) :
    ∃ cur parts, splitChar sep l = cur :: parts := by
  induction l with
  | nil => exact ⟨[], [], rfl⟩
  | cons c rest ih =>
      obtain ⟨cur, parts, h⟩ := ih
      by_cases hc : c = sep
      · exact ⟨[], cur :: parts, by simp [splitChar, h, hc]⟩
      · exact ⟨c :: cur, parts, by simp [splitChar, h, hc]⟩

/-- Splitting a separator-free list yields that single segment. -/
lemma splitChar_no_sep {sep : Char} {l : List Char} (h : sep ∉ l) :
    splitChar sep l = [l] := by
  induction l with
  | nil => rfl
  | cons c rest ih =>
      simp only [List.mem_cons, not_or] at h
      have hc : ¬ c = sep := fun he => h.1 he.symm
      simp [splitChar, ih h.2, hc]

/-- Splitting at the first separator when the prefix is separator-free. -/
lemma splitChar_append {sep : Char} {l1 : List Char} (h : sep ∉ l1) (l2 : List Char) :
    splitChar sep (l1 ++ sep :: l2) = l1 :: splitChar sep l2 := by
  induction l1 with
  | nil =>
      obtain ⟨cur, parts, hsp⟩ := splitChar_ne_nil sep l2
      simp [splitChar, hsp]
  | cons c rest ih =>
      simp only [List.mem_cons, not_or] at h
      have hc : ¬ c = sep := fun he => h.1 he.symm
      simp [splitChar, ih h.2, hc]

/-- getPath of a well-formed short URL: with a protocol prefix of the shape
`scheme://host/` (three slashes, slash-free fields) and a slash-free code,
the fourth split field is exactly the code. -/
lemma getPath_protocol {proto : String} {l1 l2 l3 : List Char}
    (hp : proto.toList = l1 ++ '/' :: (l2 ++ '/' :: (l3 ++ ['/'])))
    (h1 : '/' ∉ l1) (h2 : '/' ∉ l2) (h3 : '/' ∉ l3)
    {code : List Char} (hc : '/' ∉ code) :
    getPath (proto ++ code.asString) = some code.asString := by
  unfold getPath
  rw [toList_append_str, List.toList_asString, hp]
  have hre : (l1 ++ '/' :: (l2 ++ '/' :: (l3 ++ ['/']))) ++ code
      = l1 ++ '/' :: (l2 ++ '/' :: (l3 ++ '/' :: code)) := by simp
  rw [hre, splitChar_append h1, splitChar_append h2, splitChar_append h3,
    splitChar_no_sep hc]
  rfl

/-- Explicit form of a shorten call: counter advanced by one, one entry
prepended, configuration untouched, returned URL is protocol plus code. -/
lemma shorten_def (st : ShortenerState) (u : String) :
    shorten st u
      = ({ alphabet := st.alphabet, protocol := st.protocol, ids := st.ids + 1,
            urlmap := (toDigits st.alphabet st.ids, u) :: st.urlmap },
         st.protocol ++ encodeDigits st.alphabet (toDigits st.alphabet st.ids)) := rfl

/-- expand never changes the state. -/
lemma expand_fst (st : ShortenerState) (u : String) : (expand st u).1 = st := by
  unfold expand
  cases getPath u <;> rfl

/-- Session invariant: the configuration never changes, the counter never
goes below the seed, and every registry key is the digit sequence of a
previously issued identifier. -/
lemma reachable_inv {alpha proto : String} {seed : Int} {st : ShortenerState}
    (hr : Reachable alpha proto seed st) :
    st.alphabet = alpha ∧ st.protocol = proto ∧ seed ≤ st.ids ∧
      ∀ e ∈ st.urlmap, ∃ j : Int, seed ≤ j ∧ j < st.ids ∧ e.1 = toDigits alpha j := by
  induction hr with
  | init => exact ⟨rfl, rfl, le_refl _, by simp [shortener]⟩
  | @step_shorten st0 u hr0 ih =>
      obtain ⟨ha, hp, hi, hm⟩ := ih
      refine ⟨?_, ?_, ?_, ?_⟩
      · simpa [shorten_def] using ha
      · simpa [shorten_def] using hp
      · simp only [shorten_def]
        omega
      · simp only [shorten_def]
        intro e he
        rcases List.mem_cons.mp he with rfl | he2
        · exact ⟨st0.ids, hi, by omega, by simp [ha]⟩
        · obtain ⟨j, hj1, hj2, hj3⟩ := hm e he2
          exact ⟨j, hj1, by omega, hj3⟩
  | @step_expand st0 u hr0 ih =>
      rw [expand_fst]
      exact ih

/-- A successful association-list lookup means some entry has the looked-up
key. -/
lemma exists_key_of_lookup_eq_some {m : List (List Int × String)} {k : List Int}
    {v : String} (h : m.lookup k = some v) : ∃ e ∈ m, e.1 = k := by
  induction m with
  | nil => simp [List.lookup] at h
  | cons e es ih =>
      obtain ⟨k2, b⟩ := e
      by_cases hbeq : (k == k2) = true
      · exact ⟨(k2, b), List.mem_cons_self _ _, (eq_of_beq hbeq).symm⟩
      · have hbf : (k == k2) = false := by simpa using hbeq
        simp only [List.lookup_cons, hbf] at h
        obtain ⟨e2, he2, hek⟩ := ih h
        exact ⟨e2, List.mem_cons_of_mem _ he2, hek⟩

/-- expand on a URL whose path extracts successfully is a pure registry
lookup of the decoded digits. -/
lemma expand_eq_lookup {st : ShortenerState} {urls path : String}
    (h : getPath urls = some path) :
    expand st urls = (st, some (st.urlmap.lookup (decodeCode st.alphabet path))) := by
  unfold expand
  rw [h]

/-- C2: for every non-negative integer id, reconstructing an integer from
toDigits(id) by positional notation in base radix (radix = the alphabet
length, at least two per the alphabet invariant) yields id again:
toDigitsToId(toDigits(id)) == id. -/
theorem toDigits_id_roundtrip (alphabet : String) (hlen : 2 ≤ alphabet.length)
    (id : Int) (hid : 0 ≤ id) :
    toDigitsToId (alphabet.length : Int) (toDigits alphabet id) = id :=
  toDigitsToId_toDigits hlen id hid

theorem toDigits_id_roundtrip_witness :
    (2 ≤ alphabet.length ∧ (0 : Int) ≤ 4097)
      ∧ toDigitsToId (alphabet.length : Int) (toDigits alphabet 4097) = 4097 :=
  ⟨⟨by decide, by decide⟩, toDigits_id_roundtrip alphabet (by decide) 4097 (by decide)⟩

/-- C3: mapping the digits of toDigits(id) to alphabet characters (as
shorten does via charAt) and mapping those characters back to indices (as
expand does via indexOf) recovers exactly toDigits(id), given unique
alphabet characters: decodeCode(encodeDigits(toDigits(id))) ==
toDigits(id). -/
theorem encode_decode_digits_roundtrip (alphabet : String)
    (hnd : alphabet.toList.Nodup) (hlen : 2 ≤ alphabet.length)
    (id : Int) (hid : 0 ≤ id) :
    decodeCode alphabet (encodeDigits alphabet (toDigits alphabet id))
      = toDigits alphabet id :=
  decodeCode_encodeDigits hnd _ (toDigits_mem_range hlen id hid)

theorem encode_decode_digits_roundtrip_witness :
    (alphabet.toList.Nodup ∧ 2 ≤ alphabet.length ∧ (0 : Int) ≤ 4097)
      ∧ decodeCode alphabet (encodeDigits alphabet (toDigits alphabet 4097))
          = toDigits alphabet 4097 :=
  ⟨⟨by decide, by decide, by decide⟩,
    encode_decode_digits_roundtrip alphabet (by decide) (by decide) 4097 (by decide)⟩

/-- C4: with the configured 62-character alphanumeric alphabet, the
protocol "http://short.ly/" and start id 4097, the first shorten call
returns "http://short.ly/bef" and the second (of a different long URL)
returns "http://short.ly/beg". -/
theorem scenario_first_two_shortens :
    (shorten (shortener alphabet protocol startID) "http://www.google.com").2
        = "http://short.ly/bef"
      ∧ (shorten (shorten (shortener alphabet protocol startID)
            "http://www.google.com").1 "https://www.cics.umass.edu").2
        = "http://short.ly/beg" := by
  decide

/-- C5: toDigits 0 is the single-digit sequence [0] (the do-while body runs
at least once) and toDigits radix is [1, 0], where radix is the alphabet
length. -/
theorem toDigits_zero_and_radix (alphabet : String) (hlen : 2 ≤ alphabet.length) :
    toDigits alphabet 0 = [0]
      ∧ toDigits alphabet (alphabet.length : Int) = [1, 0] := by
  have hlen2 : (2 : Int) ≤ (alphabet.length : Int) := by exact_mod_cast hlen
  constructor
  · rw [toDigits_stop (by simp)]
    simp
  · have hq : Int.fdiv (alphabet.length : Int) (alphabet.length : Int) = 1 :=
      Int.fdiv_self (by omega)
    rw [toDigits_step hlen (by rw [hq]; omega), hq]
    have hediv : (1 : Int) / (alphabet.length : Int) = 0 :=
      Int.ediv_eq_zero_of_lt (by omega) (by omega)
    have hstop : Int.fdiv 1 (alphabet.length : Int) ≤ 0 := by
      rw [Int.fdiv_eq_ediv _ (by omega)]
      exact le_of_eq hediv
    have h1 : toDigits alphabet 1 = [1] := by
      rw [toDigits_stop hstop, Int.tmod_eq_emod (by omega) (by omega),
        Int.emod_eq_of_lt (by omega) (by omega)]
    rw [h1, Int.tmod_self]
    rfl

theorem toDigits_zero_and_radix_witness :
    2 ≤ alphabet.length
      ∧ (toDigits alphabet 0 = [0]
          ∧ toDigits alphabet (alphabet.length : Int) = [1, 0]) :=
  ⟨by decide, toDigits_zero_and_radix alphabet (by decide)⟩

/-- C6: for every URL string with at least four slash-delimited segments,
getPath returns the fourth field (index 3 of the zero-based split on the
slash); in particular it returns "bef" on "http://short.ly/bef". -/
theorem getPath_fourth_segment :
    (∀ (url : String) (h : 3 < (splitChar '/' url.toList).length),
        getPath url = some ((splitChar '/' url.toList).get ⟨3, h⟩).asString)
      ∧ getPath "http://short.ly/bef" = some "bef" := by
  constructor
  · intro url h
    unfold getPath
    rw [List.getElem?_eq_getElem h]
    simp [List.get_eq_getElem]
  · decide

theorem getPath_fourth_segment_witness :
    (3 < (splitChar '/' ("http://ex.am/ple".toList)).length)
      ∧ getPath "http://ex.am/ple" = some "ple" :=
  ⟨by decide,
    (getPath_fourth_segment.1 "http://ex.am/ple" (by decide)).trans (by decide)⟩

/-- C8: shorten has no effect beyond advancing the counter by one and
prepending exactly one registry entry (alphabet and protocol unchanged),
and expand does not change the session state at all. -/
theorem operations_frame (st : ShortenerState) (u v : String) :
    (shorten st u).1.alphabet = st.alphabet
      ∧ (shorten st u).1.protocol = st.protocol
      ∧ (shorten st u).1.ids = st.ids + 1
      ∧ (shorten st u).1.urlmap = (toDigits st.alphabet st.ids, u) :: st.urlmap
      ∧ (expand st v).1 = st :=
  ⟨rfl, rfl, rfl, rfl, expand_fst st v⟩

/-- C10: toDigits terminates on every negative id as well: the do-while
body runs exactly once (the floor quotient of a negative id by the
positive radix is not positive) and the result is the single
sign-preserving remainder id tmod radix. -/
theorem toDigits_negative_single (alphabet : String) (id : Int)
    (hlen : 1 ≤ alphabet.length) (hneg : id < 0) :
    toDigits alphabet id = [Int.tmod id (alphabet.length : Int)] :=
  toDigits_stop (fdiv_nonpos_of_nonpos (le_of_lt hneg) (by exact_mod_cast hlen))

theorem toDigits_negative_single_witness :
    (1 ≤ alphabet.length ∧ (-5 : Int) < 0)
      ∧ toDigits alphabet (-5) = [(-5 : Int)] :=
  ⟨⟨by decide, by decide⟩,
    (toDigits_negative_single alphabet (-5) (by decide) (by decide)).trans (by decide)⟩

/-- C1: for every session satisfying the specification's configuration
invariants (unique slash-free alphabet of length at least two, protocol of
the shape scheme://host/, non-negative counter) and every long URL u, if
shorten(u) returns the short URL s then expand(s) in the resulting session
returns exactly u: the lookup of the digits decoded from the extracted
path finds the value stored by that shorten call. -/
theorem shorten_then_expand (st : ShortenerState) (u : String)
    (hnd : st.alphabet.toList.Nodup) (hlen : 2 ≤ st.alphabet.length)
    (hsl : '/' ∉ st.alphabet.toList) (hid : 0 ≤ st.ids)
    (l1 l2 l3 : List Char)
    (hp : st.protocol.toList = l1 ++ '/' :: (l2 ++ '/' :: (l3 ++ ['/'])))
    (h1 : '/' ∉ l1) (h2 : '/' ∉ l2) (h3 : '/' ∉ l3) :
    (expand (shorten st u).1 (shorten st u).2).2 = some (some u) := by
  have hrange := toDigits_mem_range hlen st.ids hid
  have hcodesl : '/' ∉ (encodeDigits st.alphabet (toDigits st.alphabet st.ids)).toList :=
    fun hmem => hsl (encodeDigits_chars_mem _ hrange '/' hmem)
  have hgp : getPath (st.protocol
        ++ encodeDigits st.alphabet (toDigits st.alphabet st.ids))
      = some (encodeDigits st.alphabet (toDigits st.alphabet st.ids)) := by
    have hgp0 := getPath_protocol hp h1 h2 h3 hcodesl
    rw [String.asString_toList] at hgp0
    exact hgp0
  simp only [shorten_def]
  rw [expand_eq_lookup hgp]
  simp only []
  rw [decodeCode_encodeDigits hnd _ hrange]
  rw [List.lookup_cons]
  simp

theorem shorten_then_expand_witness :
    ((shortener alphabet protocol startID).alphabet.toList.Nodup
      ∧ 2 ≤ (shortener alphabet protocol startID).alphabet.length
      ∧ '/' ∉ (shortener alphabet protocol startID).alphabet.toList
      ∧ (0 : Int) ≤ (shortener alphabet protocol startID).ids
      ∧ (shortener alphabet protocol startID).protocol.toList
          = "http:".toList ++ '/' :: (([] : List Char) ++ '/' :: ("short.ly".toList ++ ['/']))
      ∧ '/' ∉ "http:".toList ∧ '/' ∉ ([] : List Char) ∧ '/' ∉ "short.ly".toList)
    ∧ (expand (shorten (shortener alphabet protocol startID) "http://www.google.com").1
        (shorten (shortener alphabet protocol startID) "http://www.google.com").2).2
      = some (some "http://www.google.com") :=
  ⟨⟨by decide, by decide, by decide, by decide, by decide, by decide, by decide, by decide⟩,
    shorten_then_expand (shortener alphabet protocol startID) "http://www.google.com"
      (by decide) (by decide) (by decide) (by decide)
      "http:".toList [] "short.ly".toList (by decide) (by decide) (by decide) (by decide)⟩

/-- C7: expanding a well-formed short URL whose slash-free code was never
produced by any shorten call of the session (the code differs from the
encoding of every issued identifier) returns the not-found result — never
the crash marker — and leaves the session state (registry and counter)
unchanged. -/
theorem expand_unknown_not_found (alpha proto : String) (seed : Int)
    (st : ShortenerState) (hr : Reachable alpha proto seed st)
    (hlen : 2 ≤ alpha.length) (hseed : 0 ≤ seed)
    (code : List Char) (hcode : '/' ∉ code)
    (l1 l2 l3 : List Char)
    (hp : proto.toList = l1 ++ '/' :: (l2 ++ '/' :: (l3 ++ ['/'])))
    (h1 : '/' ∉ l1) (h2 : '/' ∉ l2) (h3 : '/' ∉ l3)
    (hfresh : ∀ j : Int, seed ≤ j → j < st.ids →
      code.asString ≠ encodeDigits alpha (toDigits alpha j)) :
    expand st (proto ++ code.asString) = (st, some none) := by
  obtain ⟨ha, hpr, hi, hm⟩ := reachable_inv hr
  have hgp : getPath (proto ++ code.asString) = some code.asString :=
    getPath_protocol hp h1 h2 h3 hcode
  rw [expand_eq_lookup hgp]
  have hlk : st.urlmap.lookup (decodeCode st.alphabet code.asString) = none := by
    cases hcase : st.urlmap.lookup (decodeCode st.alphabet code.asString) with
    | none => rfl
    | some v =>
        obtain ⟨e, he, hek⟩ := exists_key_of_lookup_eq_some hcase
        obtain ⟨j, hj1, hj2, hj3⟩ := hm e he
        have hdec : decodeCode st.alphabet code.asString = toDigits alpha j := by
          rw [← hek]
          exact hj3
        have hrange := toDigits_mem_range hlen j (by omega)
        rw [← hdec] at hrange
        have hpos : ∀ c ∈ code, 0 ≤ indexOf st.alphabet c := by
          intro c hcm
          have hmem : indexOf st.alphabet c
              ∈ decodeCode st.alphabet code.asString := by
            simp only [decodeCode, List.toList_asString]
            exact List.mem_map_of_mem _ hcm
          exact (hrange _ hmem).1
        have henc := encodeDigits_decode_chars code hpos
        have hmap : code.map (fun c => indexOf st.alphabet c)
            = decodeCode st.alphabet code.asString := by
          simp only [decodeCode, List.toList_asString]
        rw [hmap, hdec, ha] at henc
        exact absurd henc.symm (hfresh j hj1 hj2)
  rw [hlk]

theorem expand_unknown_not_found_witness :
    (2 ≤ alphabet.length ∧ (0 : Int) ≤ startID
      ∧ '/' ∉ "zzz".toList
      ∧ protocol.toList
          = "http:".toList ++ '/' :: (([] : List Char) ++ '/' :: ("short.ly".toList ++ ['/']))
      ∧ '/' ∉ "http:".toList ∧ '/' ∉ ([] : List Char) ∧ '/' ∉ "short.ly".toList
      ∧ (∀ j : Int, startID ≤ j → j < (shortener alphabet protocol startID).ids →
          ("zzz".toList).asString ≠ encodeDigits alphabet (toDigits alphabet j)))
    ∧ expand (shortener alphabet protocol startID) (protocol ++ ("zzz".toList).asString)
        = (shortener alphabet protocol startID, some none) :=
  ⟨⟨by decide, by decide, by decide, by decide, by decide, by decide, by decide,
      fun j hj1 hj2 => absurd (lt_of_le_of_lt hj1 hj2) (lt_irrefl startID)⟩,
    expand_unknown_not_found alphabet protocol startID
      (shortener alphabet protocol startID) Reachable.init (by decide) (by decide)
      "zzz".toList (by decide) "http:".toList [] "short.ly".toList
      (by decide) (by decide) (by decide) (by decide)
      (fun j hj1 hj2 => absurd (lt_of_le_of_lt hj1 hj2) (lt_irrefl startID))⟩

/-- C9: in every reachable session state, shorten stores under a key not
already present (distinct identifiers give distinct digit-sequence keys),
it only prepends (never updates or deletes), and shortening the same long
value twice creates two independent entries with two different short
URLs. -/
theorem registry_create_only (alpha proto : String) (seed : Int)
    (st : ShortenerState) (u : String) (hr : Reachable alpha proto seed st)
    (hlen : 2 ≤ alpha.length) (hseed : 0 ≤ seed) (hnd : alpha.toList.Nodup) :
    (∀ e ∈ st.urlmap, e.1 ≠ toDigits alpha st.ids)
      ∧ (shorten st u).1.urlmap = (toDigits alpha st.ids, u) :: st.urlmap
      ∧ (shorten (shorten st u).1 u).1.urlmap
          = (toDigits alpha (st.ids + 1), u) :: (toDigits alpha st.ids, u) :: st.urlmap
      ∧ toDigits alpha (st.ids + 1) ≠ toDigits alpha st.ids
      ∧ (shorten (shorten st u).1 u).2 ≠ (shorten st u).2 := by
  obtain ⟨ha, hpr, hi, hm⟩ := reachable_inv hr
  have hids0 : 0 ≤ st.ids := by omega
  have hlen2 : 2 ≤ st.alphabet.length := by rw [ha]; exact hlen
  have hnd2 : st.alphabet.toList.Nodup := by rw [ha]; exact hnd
  refine ⟨?_, ?_, ?_, ?_, ?_⟩
  · intro e he heq
    obtain ⟨j, hj1, hj2, hj3⟩ := hm e he
    rw [hj3] at heq
    have := toDigits_inj hlen (by omega) hids0 heq
    omega
  · simp only [shorten_def, ha]
  · simp only [shorten_def, ha]
  · intro heq
    have := toDigits_inj hlen (by omega) hids0 heq
    omega
  · intro heq
    simp only [shorten_def] at heq
    have hd : (st.protocol
          ++ encodeDigits st.alphabet (toDigits st.alphabet (st.ids + 1))).data
        = (st.protocol
          ++ encodeDigits st.alphabet (toDigits st.alphabet st.ids)).data := by
      rw [heq]
    rw [String.data_append, String.data_append] at hd
    have hcancel := List.append_cancel_left hd
    have hdig : encodeDigits st.alphabet (toDigits st.alphabet (st.ids + 1))
        = encodeDigits st.alphabet (toDigits st.alphabet st.ids) :=
      String.ext hcancel
    have hdd : toDigits st.alphabet (st.ids + 1) = toDigits st.alphabet st.ids := by
      have c1 := decodeCode_encodeDigits hnd2 _
        (toDigits_mem_range hlen2 (st.ids + 1) (by omega))
      have c2 := decodeCode_encodeDigits hnd2 _
        (toDigits_mem_range hlen2 st.ids hids0)
      rw [← c1, ← c2, hdig]
    have := toDigits_inj hlen2 (by omega) hids0 hdd
    omega

theorem registry_create_only_witness :
    (2 ≤ alphabet.length ∧ (0 : Int) ≤ startID ∧ alphabet.toList.Nodup)
      ∧ ((∀ e ∈ (shortener alphabet protocol startID).urlmap,
            e.1 ≠ toDigits alphabet (shortener alphabet protocol startID).ids)
        ∧ (shorten (shortener alphabet protocol startID) "u").1.urlmap
            = (toDigits alphabet (shortener alphabet protocol startID).ids, "u")
                :: (shortener alphabet protocol startID).urlmap
        ∧ (shorten (shorten (shortener alphabet protocol startID) "u").1 "u").1.urlmap
            = (toDigits alphabet ((shortener alphabet protocol startID).ids + 1), "u")
                :: (toDigits alphabet (shortener alphabet protocol startID).ids, "u")
                :: (shortener alphabet protocol startID).urlmap
        ∧ toDigits alphabet ((shortener alphabet protocol startID).ids + 1)
            ≠ toDigits alphabet (shortener alphabet protocol startID).ids
        ∧ (shorten (shorten (shortener alphabet protocol startID) "u").1 "u").2
            ≠ (shorten (shortener alphabet protocol startID) "u").2) :=
  ⟨⟨by decide, by decide, by decide⟩,
    registry_create_only alphabet protocol startID
      (shortener alphabet protocol startID) "u" Reachable.init
      (by decide) (by decide) (by decide)⟩

end Shortener
